import Mathlib

/-
  Verification development for the duplicate-elimination engine of sql/uniques.cc
  (class Unique): the bounded in-memory dedup buffer, the run spiller and run
  directory, the finalize/merge driver (Unique::get), and the analytic cost
  estimator (Unique::get_use_cost with get_merge_many_buffs_cost and
  get_merge_buffers_cost).

  Shallow embedding conventions:
  - C unsigned integers (uint, ulong) are modelled as Nat; double is modelled
    as the real numbers, with log, pi and e taken from Mathlib.
  - The in-memory TREE is modelled as the strictly ascending list of the keys
    it currently holds (its in-order traversal); keys are drawn from an
    arbitrary linear order standing for the caller supplied comparator.
  - The temp store (IO_CACHE file) is the list of keys written so far, in
    write order; my_b_tell is the byte count, i.e. size * length.
  - Fallible environment steps (malloc, my_b_write, insert_dynamic, the
    external merge) are driven by explicit failure-injection parameters.
-/

namespace Uniques

/-! ## Constants from headers outside this excerpt -/

/-- Modelled from the spec: the io_block_size (IO_SIZE) used by the cost model;
the header defining it is not part of this excerpt.  4096 is the standard value. -/
def IO_SIZE : ℕ := 4096

/-- Modelled from the spec: the fixed comparisons-per-seek-equivalent-unit
constant (TIME_FOR_COMPARE_ROWID); its defining header is not part of this
excerpt.  The value is 2 * TIME_FOR_COMPARE = 10. -/
noncomputable def TIME_FOR_COMPARE_ROWID : ℝ := 10

/-- Modelled from the spec: the per-seek base cost constant
(DISK_SEEK_BASE_COST) applied to sequential run writes; its defining header is
not part of this excerpt.  The value is 0.5.  No claim settled below depends on
this value. -/
noncomputable def DISK_SEEK_BASE_COST : ℝ := 1 / 2

/-- Modelled from the spec: the merge fan-in limit MERGEBUFF from sql_sort.h
(not part of this excerpt); value 7. -/
def MERGEBUFF : ℕ := 7

/-- Modelled from the spec: the high-fan-in threshold MERGEBUFF2 from
sql_sort.h (not part of this excerpt); value 15. -/
def MERGEBUFF2 : ℕ := 15

/-- Modelled from the spec: the per-node bookkeeping size sizeof(TREE_ELEMENT)
of the externally provided ordered container (two pointers and a 32-bit
count/colour word, padded); 24 bytes on a 64-bit build.  The claims settled
below do not depend on the exact value. -/
def sizeof_TREE_ELEMENT : ℕ := 24

/-- ALIGN_SIZE from my_global.h (not part of this excerpt): round up to a
multiple of sizeof(double) = 8. -/
def ALIGN_SIZE (n : ℕ) : ℕ := ((n + 7) / 8) * 8

/-! ## The cost estimator (uniques.cc lines 90-314) -/

/-- log2_n_fact, uniques.cc lines 90-93:
(log(2*M_PI*x)/2 + x*log(x/M_E)) / M_LN2. -/
noncomputable def log2_n_fact (x : ℝ) : ℝ :=
  (Real.log (2 * Real.pi * x) / 2 + x * Real.log (x / Real.exp 1)) / Real.log 2

/-- The sum computed by the pbuf loop of get_merge_buffers_cost
(uniques.cc lines 131-133): total of the element counts in slots
first..last of the buffer array (out-of-range slots read as 0). -/
def mergeTotal (l : List ℕ) (first last : ℕ) : ℕ :=
  ∑ j ∈ Finset.range (last + 1 - first), l.getD (first + j) 0

/-- The store performed by get_merge_buffers_cost (uniques.cc line 134):
the slot last receives the total of slots first..last. -/
def mergeUpdate (l : List ℕ) (first last : ℕ) : List ℕ :=
  l.set last (mergeTotal l first last)

/-- The value returned by get_merge_buffers_cost (uniques.cc lines 139-140)
for a collapse of n slots totalling tot elements of size es:
2*(tot*es)/IO_SIZE + tot*log(n)/(TIME_FOR_COMPARE_ROWID*M_LN2). -/
noncomputable def chargeOf (es tot n : ℕ) : ℝ :=
  2 * ((tot : ℝ) * (es : ℝ)) / (IO_SIZE : ℝ) +
    (tot : ℝ) * Real.log (n : ℝ) / (TIME_FOR_COMPARE_ROWID * Real.log 2)

/-- get_merge_buffers_cost (uniques.cc lines 127-141), cost component:
reads slots first..last, n_buffers = last - first + 1. -/
noncomputable def mergeBuffersCost (es : ℕ) (l : List ℕ) (first last : ℕ) : ℝ :=
  chargeOf es (mergeTotal l first last) (last + 1 - first)

/-- One inner pass of get_merge_many_buffs_cost (uniques.cc lines 196-204):
starting at slot i with collapse counter cnt (the number of lastbuff++
increments so far), while i <= maxbuffer - MERGEBUFF*3/2 (= maxbuffer - 10)
collapse the seven slots i..i+6, then collapse the tail slots i..maxbuffer.
The third component carries the final number of collapses performed,
together with its exact closed form, which makes the outer while loop
terminate. -/
noncomputable def passLoop (es mb : ℕ) (i : ℕ) (l : List ℕ) (cnt : ℕ) :
    ℝ × List ℕ ×
      {n : ℕ // n = cnt + (if i + 10 ≤ mb then (mb - 10 - i) / 7 + 2 else 1)} :=
  if h : i + 10 ≤ mb then
    let r := passLoop es mb (i + 7) (mergeUpdate l i (i + 6)) (cnt + 1)
    (mergeBuffersCost es l i (i + 6) + r.1, r.2.1,
      ⟨r.2.2.1, by
        have hb := r.2.2.2
        rw [if_pos h]
        split_ifs at hb <;> omega⟩)
  else
    (mergeBuffersCost es l i mb, mergeUpdate l i mb, ⟨cnt + 1, by rw [if_neg h]⟩)
termination_by mb + 10 - i
decreasing_by omega

/-- The outer while loop of get_merge_many_buffs_cost (uniques.cc lines
192-207): while maxbuffer >= MERGEBUFF2, run one pass and set
maxbuffer = (uint)lastbuff - 1 (line 205).  lastbuff is a uint pointer
advanced from the null pointer once per collapse (lines 178, 196, 198, 202),
so the cast to uint yields sizeof(uint) = 4 times the number of collapses,
and the update assigns 4*collapses - 1.  Returns (accumulated cost, final
buffer array, final maxbuffer). -/
noncomputable def manyLoop (es : ℕ) (l : List ℕ) (mb : ℕ) : ℝ × List ℕ × ℕ :=
  if h : MERGEBUFF2 ≤ mb then
    match hr : passLoop es mb 0 l 0 with
    | (c, l1, m1) =>
      let rest := manyLoop es l1 (4 * m1.1 - 1)
      (c + rest.1, rest.2.1, rest.2.2)
  else (0, l, mb)
termination_by mb
decreasing_by
  have hb := m1.2
  simp only [MERGEBUFF2] at h
  split_ifs at hb <;> omega

/-- get_merge_many_buffs_cost (uniques.cc lines 171-213): seed the buffer
array with maxbuffer entries of max_n_elems and one entry of last_n_elems,
run the multi-pass while loop, then simulate the final merge_buffers call
over slots 0..maxbuffer of what remains. -/
noncomputable def get_merge_many_buffs_cost
    (maxbuffer max_n_elems last_n_elems elem_size : ℕ) : ℝ :=
  let l := List.replicate maxbuffer max_n_elems ++ [last_n_elems]
  match manyLoop elem_size l maxbuffer with
  | (c, l1, m1) => c + mergeBuffersCost elem_size l1 0 m1

/-- max_elements_in_tree as computed by Unique::get_use_cost (uniques.cc
lines 271-272) and by the constructor (line 69):
max_in_memory_size / ALIGN_SIZE(sizeof(TREE_ELEMENT)+key_size). -/
def max_elements_in_tree (key_size max_in_memory_size : ℕ) : ℕ :=
  max_in_memory_size / ALIGN_SIZE (sizeof_TREE_ELEMENT + key_size)

/-- The tree-creation cost term of Unique::get_use_cost (uniques.cc lines
277-281): 2*log2_n_fact(last_tree_elems+1), plus, when n_full_trees is
nonzero, n_full_trees*log2_n_fact(max_elements_in_tree+1); the sum divided
by TIME_FOR_COMPARE_ROWID. -/
noncomputable def tree_build_term (n_full_trees maxel lastel : ℕ) : ℝ :=
  (if n_full_trees ≠ 0 then
      2 * log2_n_fact ((lastel : ℝ) + 1) +
        (n_full_trees : ℝ) * log2_n_fact ((maxel : ℝ) + 1)
    else 2 * log2_n_fact ((lastel : ℝ) + 1)) / TIME_FOR_COMPARE_ROWID

/-- The sequential-write cost term of Unique::get_use_cost (uniques.cc lines
295-297).  Note that key_size*maxel / IO_SIZE is unsigned integer arithmetic
in the source, so the quotient is truncated before ceil is applied. -/
noncomputable def write_runs_term (n_full_trees maxel lastel key_size : ℕ) : ℝ :=
  DISK_SEEK_BASE_COST * (n_full_trees : ℝ) * (⌈((key_size * maxel / IO_SIZE : ℕ) : ℝ)⌉ : ℝ) +
    DISK_SEEK_BASE_COST * (⌈((key_size * lastel / IO_SIZE : ℕ) : ℝ)⌉ : ℝ)

/-- The final sequential-read cost term of Unique::get_use_cost (uniques.cc
line 311): ceil((double)key_size*nkeys/IO_SIZE), computed in double. -/
noncomputable def read_result_term (nkeys key_size : ℕ) : ℝ :=
  (⌈(key_size : ℝ) * (nkeys : ℝ) / (IO_SIZE : ℝ)⌉ : ℝ)

/-- Unique::get_use_cost (uniques.cc lines 263-314). -/
noncomputable def get_use_cost (nkeys key_size max_in_memory_size : ℕ) : ℝ :=
  let maxel := max_elements_in_tree key_size max_in_memory_size
  let n_full_trees := nkeys / maxel
  let last_tree_elems := nkeys % maxel
  let result := tree_build_term n_full_trees maxel last_tree_elems
  if n_full_trees = 0 then result
  else
    let merge_cost := get_merge_many_buffs_cost n_full_trees maxel last_tree_elems key_size
    if merge_cost < 0 then merge_cost
    else
      result + write_runs_term n_full_trees maxel last_tree_elems key_size +
        merge_cost + read_result_term nkeys key_size

/-! ## The claim-side cost formulas (formalizing the claim texts, for
comparison with the code) -/

/-- Formalizes the tree-build term as claim C5 states it:
2*log2((maxel+1)!) for each of the n_full_trees full runs plus
2*log2((lastel+1)!) for the remainder run, divided by
TIME_FOR_COMPARE_ROWID. -/
noncomputable def claim_tree_build_term (n_full_trees maxel lastel : ℕ) : ℝ :=
  (2 * (n_full_trees : ℝ) * log2_n_fact ((maxel : ℝ) + 1) +
      2 * log2_n_fact ((lastel : ℝ) + 1)) / TIME_FOR_COMPARE_ROWID

/-- Formalizes the write-cost term as claim C6 states it:
ceil of the exact rational quotient bytes/IO_SIZE, one seek-equivalent unit
scale, per full run and once for the remainder run. -/
noncomputable def claim_write_runs_term (n_full_trees maxel lastel key_size : ℕ) : ℝ :=
  (n_full_trees : ℝ) * (⌈(key_size : ℝ) * (maxel : ℝ) / (IO_SIZE : ℝ)⌉ : ℝ) +
    (⌈(key_size : ℝ) * (lastel : ℝ) / (IO_SIZE : ℝ)⌉ : ℝ)

/-- Formalizes one pass of the merge simulation as claim C7 states it:
collapse groups of up to MERGEBUFF = 7 runs into one run per group
(greedily from the front), one output run per collapse. -/
noncomputable def claimPass (es : ℕ) :
    (l : List ℕ) → ℝ × {rs : List ℕ // rs.length * 7 ≤ l.length + 6}
  | [] => (0, ⟨[], by simp⟩)
  | x :: xs =>
    let r := claimPass es ((x :: xs).drop MERGEBUFF)
    (chargeOf es ((x :: xs).take MERGEBUFF).sum ((x :: xs).take MERGEBUFF).length + r.1,
      ⟨((x :: xs).take MERGEBUFF).sum :: r.2.1, by
        have hb := r.2.2
        simp only [List.length_drop, List.length_cons, MERGEBUFF] at hb ⊢
        omega⟩)
termination_by l => l.length
decreasing_by simp only [List.length_drop, List.length_cons, MERGEBUFF]; omega

/-- Formalizes the merge simulation as claim C7 states it: while the run
count is at or above the high-fan-in threshold, collapse groups of up to the
fan-in limit into one run per group; afterwards one final collapse of all
remaining runs; every collapse charged by the chargeOf formula; result is
the sum of the charges. -/
noncomputable def claimSim (es : ℕ) (runs : List ℕ) : ℝ :=
  if h : MERGEBUFF2 + 1 ≤ runs.length then
    let r := claimPass es runs
    r.1 + claimSim es r.2.1
  else chargeOf es runs.sum runs.length
termination_by runs.length
decreasing_by
  have hb := (claimPass es runs).2.2
  simp only [MERGEBUFF2] at h
  omega

/-! ## The amended description of the merge simulation (for claim C7) -/

/-- The number of full seven-slot collapses one pass of
get_merge_many_buffs_cost performs when the current maxbuffer is mb
(entered only when mb is at least MERGEBUFF2): the loop runs for
i = 0, 7, ... while i <= mb - 10, so (mb - 10)/7 + 1 iterations. -/
def fullGroups (mb : ℕ) : ℕ := (mb - 10) / 7 + 1

/-- One pass as the amended claim describes it: fullGroups mb collapses of
exactly the seven slots 7j..7j+6, then one tail collapse of the slots
7*fullGroups mb..mb (between 4 and 10 slots); each collapse charged by the
chargeOf formula on the slot values currently in the array; each collapse
stores its total into the last slot of its group (the array is not
compacted, so the leading slots keep their old, stale values); the new
maxbuffer is 4*(fullGroups mb + 1) - 1, i.e. four times the number of
collapses minus one, because line 205 casts the null-based output pointer
lastbuff (advanced once per collapse) to uint. -/
noncomputable def amendedPass (es : ℕ) (l : List ℕ) (mb : ℕ) : ℝ × List ℕ × ℕ :=
  ((∑ j ∈ Finset.range (fullGroups mb), chargeOf es (mergeTotal l (7 * j) (7 * j + 6)) 7) +
      chargeOf es (mergeTotal l (7 * fullGroups mb) mb) (mb + 1 - 7 * fullGroups mb),
    mergeUpdate ((List.range (fullGroups mb)).foldl
        (fun a j => mergeUpdate a (7 * j) (7 * j + 6)) l) (7 * fullGroups mb) mb,
    4 * (fullGroups mb + 1) - 1)

/-- The whole simulation as the amended claim describes it: run amended
passes while maxbuffer is at or above MERGEBUFF2, then charge one final
collapse of slots 0..maxbuffer of the remaining (partially stale) array. -/
noncomputable def amendedSim (es : ℕ) (l : List ℕ) (mb : ℕ) : ℝ :=
  if h : MERGEBUFF2 ≤ mb then
    (amendedPass es l mb).1 + amendedSim es (amendedPass es l mb).2.1 (amendedPass es l mb).2.2
  else chargeOf es (mergeTotal l 0 mb) (mb + 1)
termination_by mb
decreasing_by
  simp only [amendedPass, fullGroups, MERGEBUFF2] at h ⊢
  omega

/-! ## The Unique instance state machine (uniques.cc lines 38-72, 324-418) -/

/-- BUFFPEK run descriptor as used by Unique (sql_sort.h): byte offset in the
temp store and element count of one flushed run. -/
structure Buffpek where
  file_pos : ℕ
  count : ℕ
deriving DecidableEq, Repr

/-- The state of one Unique instance: the in-memory TREE (modelled by its
ascending in-order traversal), the temp-store file contents (keys in write
order), the file_ptrs dynamic array of run descriptors, and the running
elements counter. -/
structure UState (α : Type) where
  tree : List α
  file : List α
  runs : List Buffpek
  elements : ℕ
deriving DecidableEq, Repr

/-- The state right after the constructor (uniques.cc lines 57-72): empty
tree, empty temp store, empty run directory, elements = 0. -/
def initState (α : Type) : UState α :=
  ⟨[], [], [], 0⟩

variable {α : Type} [LinearOrder α]

/-- tree_insert of the external ordered-container collaborator on the
in-order-traversal model: insert k at its place unless an equal key is
already present (duplicate insertions are a no-op). -/
def treeInsert (k : α) : List α → List α
  | [] => [k]
  | x :: xs => if k < x then k :: x :: xs else if k = x then x :: xs else x :: treeInsert k xs

/-- my_b_tell of the temp store: bytes written so far, with size bytes per
key. -/
def myBTell (size : ℕ) (s : UState α) : ℕ :=
  size * s.file.length

/-- Unique::flush (uniques.cc lines 325-337), with failure injection:
wfail = some k makes the k-th my_b_write of the tree walk fail (when the
tree holds more than k keys), dynfail makes insert_dynamic fail.  Returns
(error flag, next state).  Mirrors the source order: elements is increased
and the descriptor fields are computed before the walk; on a walk failure
the keys before the failing write are already in the file; the descriptor
is appended and the tree cleared only on full success. -/
def flushF (size : ℕ) (s : UState α) (wfail : Option ℕ) (dynfail : Bool) :
    Bool × UState α :=
  let cnt := s.tree.length
  let pos := myBTell size s
  let elements1 := s.elements + cnt
  match wfail with
  | some k =>
    if k < cnt then
      (true, ⟨s.tree, s.file ++ s.tree.take k, s.runs, elements1⟩)
    else if dynfail then
      (true, ⟨s.tree, s.file ++ s.tree, s.runs, elements1⟩)
    else
      (false, ⟨[], s.file ++ s.tree, s.runs ++ [⟨pos, cnt⟩], elements1⟩)
  | none =>
    if dynfail then
      (true, ⟨s.tree, s.file ++ s.tree, s.runs, elements1⟩)
    else
      (false, ⟨[], s.file ++ s.tree, s.runs ++ [⟨pos, cnt⟩], elements1⟩)

/-- Modelled from the spec: Unique::put, the Insertion Driver of section 4.2,
is not part of this excerpt (only the class body in the headers has it).
Per the spec: if the buffer is at capacity before the attempt, first invoke
flush (clearing the buffer), then insert into the now-empty buffer; a flush
failure is reported to the caller.  maxElems is the capacity
max_elements of the instance. -/
def putOp (size maxElems : ℕ) (s : UState α) (k : α) : Option (UState α) :=
  if maxElems ≤ s.tree.length then
    match flushF size s none false with
    | (true, _) => none
    | (false, s1) => some { s1 with tree := treeInsert k s1.tree }
  else
    some { s with tree := treeInsert k s.tree }

/-- One externally visible operation on a live instance: an insertion, or an
explicit flush with its failure injection. -/
inductive UOp (α : Type) where
  | put (k : α)
  | flush (wfail : Option ℕ) (dynfail : Bool)

/-- Run one operation; none when the operation reports failure. -/
def stepOp (size maxElems : ℕ) (s : UState α) : UOp α → Option (UState α)
  | .put k => putOp size maxElems s k
  | .flush w d =>
    match flushF size s w d with
    | (true, _) => none
    | (false, s1) => some s1

/-- Run a sequence of operations from a state; none as soon as one fails. -/
def runOps (size maxElems : ℕ) (s : UState α) : List (UOp α) → Option (UState α)
  | [] => some s
  | op :: rest =>
    match stepOp size maxElems s op with
    | none => none
    | some s1 => runOps size maxElems s1 rest

/-- The keys handed to put, in order, over a sequence of operations. -/
def insertedKeys : List (UOp α) → List α
  | [] => []
  | .put k :: rest => k :: insertedKeys rest
  | .flush _ _ :: rest => insertedKeys rest

/-- The contents of the flushed runs, recovered from the temp store through
the run directory: descriptor b covers count keys starting at byte offset
file_pos, i.e. key index file_pos / size. -/
def runContents (size : ℕ) (s : UState α) : List (List α) :=
  s.runs.map fun b => (s.file.drop (b.file_pos / size)).take b.count

/-- Modelled from the spec: merge_many_buff and merge_buffers, the external
multi-way merge collaborator of section 6, are not part of this excerpt.
Contract: given the runs, produce a single ascending, duplicate-suppressed
sequence of all their keys.  Modelled as the ascending duplicate-free
enumeration obtained by ordered insertion of every key of every run. -/
def mergeSpec (runsData : List (List α)) : List α :=
  runsData.flatten.foldl (fun acc k => treeInsert k acc) []

/-- Failure injection for the environment steps of Unique::get: the flat
output malloc (line 353), the outfile IO_CACHE malloc/open (lines 373-379),
the sort_buffer malloc (line 390), and the merge/flush_io_cache steps
(lines 398-410); plus the injection for the flush call at line 362. -/
structure GetEnv where
  flatAllocOk : Bool
  outfileOk : Bool
  sortBufOk : Bool
  mergeOk : Bool
  wfail : Option ℕ
  dynfail : Bool
deriving DecidableEq, Repr

/-- Outcome of Unique::get: success with the flat in-memory output, success
with the merged on-disk output stream, or failure. -/
inductive GetResult (α : Type) where
  | mem (out : List α)
  | disk (out : List α)
  | fail
deriving DecidableEq, Repr

/-- Unique::get (uniques.cc lines 345-418): if nothing was ever written to
the temp store and the flat malloc succeeds, deliver the tree by ascending
traversal into the flat region and return success; otherwise flush the tree
as a final run (failure propagates), allocate the outfile and the sort
buffer (failures propagate), and drive the external merge over all runs of
the directory into the outfile. -/
def uget (size : ℕ) (s : UState α) (env : GetEnv) : GetResult α × UState α :=
  if myBTell size s = 0 ∧ env.flatAllocOk then
    (GetResult.mem s.tree, s)
  else
    match flushF size s env.wfail env.dynfail with
    | (true, s1) => (GetResult.fail, s1)
    | (false, s1) =>
      if env.outfileOk = false then (GetResult.fail, s1)
      else if env.sortBufOk = false then (GetResult.fail, s1)
      else if env.mergeOk then (GetResult.disk (mergeSpec (runContents size s1)), s1)
      else (GetResult.fail, s1)

/-- The run directory tiles the temp store starting at key index n: each
descriptor starts at byte offset size * n where n is the number of keys
written before it, and covers its count keys. -/
def tiledRuns (size : ℕ) : List Buffpek → ℕ → Prop
  | [], _ => True
  | b :: bs, n => b.file_pos = size * n ∧ tiledRuns size bs (n + b.count)

/-- The reachable-state invariant of one Unique instance (all operations
succeeded): the directory tiles the file, the counts sum to the file length,
elements equals the file length, the tree is strictly ascending, and the
keys present (file plus tree) are exactly the inserted keys ks. -/
structure Inv (size : ℕ) (s : UState α) (ks : List α) : Prop where
  tiled : tiledRuns size s.runs 0
  sumCounts : (s.runs.map Buffpek.count).sum = s.file.length
  elems : s.elements = s.file.length
  sorted : s.tree.Sorted (· < ·)
  keys : ∀ k, (k ∈ s.file ∨ k ∈ s.tree) ↔ k ∈ ks

/-! ## Helper lemmas: the ordered container model -/

theorem mem_treeInsert (k x : α) (l : List α) :
    x ∈ treeInsert k l ↔ x = k ∨ x ∈ l := by
  induction l with
  | nil => simp [treeInsert]
  | cons y ys ih =>
    simp only [treeInsert]
    split_ifs with h1 h2
    · simp
    · subst h2
      simp only [List.mem_cons]
      tauto
    · simp only [List.mem_cons, ih]
      tauto

theorem sorted_treeInsert (k : α) (l : List α) (h : l.Sorted (· < ·)) :
    (treeInsert k l).Sorted (· < ·) := by
  induction l with
  | nil => simp [treeInsert]
  | cons y ys ih =>
    rw [List.sorted_cons] at h
    simp only [treeInsert]
    split_ifs with h1 h2
    · exact List.sorted_cons.mpr ⟨by
        intro b hb
        rcases List.mem_cons.mp hb with rfl | hb
        · exact h1
        · exact lt_trans h1 (h.1 b hb), List.sorted_cons.mpr h⟩
    · exact List.sorted_cons.mpr h
    · refine List.sorted_cons.mpr ⟨?_, ih h.2⟩
      intro b hb
      rcases (mem_treeInsert k b ys).mp hb with rfl | hb
      · exact lt_of_le_of_ne (not_lt.mp h1) (Ne.symm h2)
      · exact h.1 b hb

theorem mem_foldl_treeInsert (l : List α) :
    ∀ (acc : List α) (x : α),
      x ∈ l.foldl (fun acc k => treeInsert k acc) acc ↔ x ∈ acc ∨ x ∈ l := by
  induction l with
  | nil => simp
  | cons y ys ih =>
    intro acc x
    simp only [List.foldl_cons, ih, mem_treeInsert, List.mem_cons]
    tauto

theorem sorted_foldl_treeInsert (l : List α) :
    ∀ (acc : List α), acc.Sorted (· < ·) →
      (l.foldl (fun acc k => treeInsert k acc) acc).Sorted (· < ·) := by
  induction l with
  | nil => simpa using fun acc h => h
  | cons y ys ih =>
    intro acc hacc
    exact ih _ (sorted_treeInsert y acc hacc)

theorem mem_mergeSpec (runsData : List (List α)) (x : α) :
    x ∈ mergeSpec runsData ↔ x ∈ runsData.flatten := by
  simp [mergeSpec, mem_foldl_treeInsert]

theorem sorted_mergeSpec (runsData : List (List α)) :
    (mergeSpec runsData).Sorted (· < ·) :=
  sorted_foldl_treeInsert _ _ (by simp)

/-! ## Helper lemmas: the run directory -/

theorem tiledRuns_append (size : ℕ) (b : Buffpek) :
    ∀ (rs : List Buffpek) (n : ℕ), tiledRuns size rs n →
      b.file_pos = size * (n + (rs.map Buffpek.count).sum) →
      tiledRuns size (rs ++ [b]) n := by
  intro rs
  induction rs with
  | nil => intro n _ hb; simpa [tiledRuns] using hb
  | cons c cs ih =>
    intro n ht hb
    exact ⟨ht.1, ih (n + c.count) ht.2 (by rw [hb]; ring_nf; simp [List.map_cons]; ring)⟩

theorem tiledRuns_pos_ge (size : ℕ) :
    ∀ (rs : List Buffpek) (n : ℕ), tiledRuns size rs n →
      ∀ x ∈ rs, size * n ≤ x.file_pos := by
  intro rs
  induction rs with
  | nil => simp
  | cons c cs ih =>
    intro n ht x hx
    rcases List.mem_cons.mp hx with rfl | hx
    · exact le_of_eq ht.1.symm
    · exact le_trans (Nat.mul_le_mul_left size (Nat.le_add_right n c.count)) (ih _ ht.2 x hx)

theorem tiledRuns_pairwise (size : ℕ) :
    ∀ (rs : List Buffpek) (n : ℕ), tiledRuns size rs n →
      rs.Pairwise (fun a b => a.file_pos + size * a.count ≤ b.file_pos) := by
  intro rs
  induction rs with
  | nil => simp
  | cons c cs ih =>
    intro n ht
    refine List.pairwise_cons.mpr ⟨?_, ih _ ht.2⟩
    intro b hb
    have := tiledRuns_pos_ge size cs (n + c.count) ht.2 b hb
    calc c.file_pos + size * c.count = size * (n + c.count) := by rw [ht.1]; ring
    _ ≤ b.file_pos := this

theorem flatten_segments (size : ℕ) (hsize : 0 < size) (file : List α) :
    ∀ (rs : List Buffpek) (n : ℕ), tiledRuns size rs n →
      n + (rs.map Buffpek.count).sum = file.length →
      (rs.map fun b => (file.drop (b.file_pos / size)).take b.count).flatten = file.drop n := by
  intro rs
  induction rs with
  | nil =>
    intro n _ hlen
    simp only [List.map_nil, List.flatten_nil]
    symm
    apply List.drop_eq_nil_of_le
    simp at hlen
    omega
  | cons b bs ih =>
    intro n ht hlen
    simp only [List.map_cons, List.flatten_cons]
    have hpos : b.file_pos / size = n := by
      rw [ht.1, Nat.mul_div_cancel_left n hsize]
    rw [hpos, ih (n + b.count) ht.2 (by simp at hlen ⊢; omega)]
    rw [← List.drop_drop]
    exact List.take_append_drop b.count (file.drop n)

/-! ## Helper lemmas: the reachable-state invariant -/

theorem Inv_congr {size : ℕ} {s : UState α} {ks ks1 : List α}
    (h : ∀ k, k ∈ ks ↔ k ∈ ks1) (hI : Inv size s ks) : Inv size s ks1 :=
  ⟨hI.tiled, hI.sumCounts, hI.elems, hI.sorted, fun k => (hI.keys k).trans (h k)⟩

theorem initState_inv (size : ℕ) : Inv size (initState α) [] :=
  ⟨trivial, rfl, rfl, List.sorted_nil, by simp [initState]⟩

theorem flushF_success_eq {size : ℕ} {s s1 : UState α}
    {w : Option ℕ} {d : Bool} (h : flushF size s w d = (false, s1)) :
    s1 = ⟨[], s.file ++ s.tree,
      s.runs ++ [⟨myBTell size s, s.tree.length⟩], s.elements + s.tree.length⟩ := by
  cases w with
  | none =>
    simp only [flushF] at h
    split_ifs at h with hd
    · exact absurd (congrArg Prod.fst h) (by simp)
    · exact (congrArg Prod.snd h).symm
  | some k =>
    simp only [flushF] at h
    split_ifs at h with hk hd
    · exact absurd (congrArg Prod.fst h) (by simp)
    · exact absurd (congrArg Prod.fst h) (by simp)
    · exact (congrArg Prod.snd h).symm

theorem flushF_fail_eq {size : ℕ} {s s1 : UState α}
    {w : Option ℕ} {d : Bool} (h : flushF size s w d = (true, s1)) :
    s1.runs = s.runs ∧ s1.elements = s.elements + s.tree.length := by
  cases w with
  | none =>
    simp only [flushF] at h
    split_ifs at h with hd
    · exact ⟨(congrArg (fun p => p.2.runs) h).symm, (congrArg (fun p => p.2.elements) h).symm⟩
    · exact absurd (congrArg Prod.fst h) (by simp)
  | some k =>
    simp only [flushF] at h
    split_ifs at h with hk hd
    · exact ⟨(congrArg (fun p => p.2.runs) h).symm, (congrArg (fun p => p.2.elements) h).symm⟩
    · exact ⟨(congrArg (fun p => p.2.runs) h).symm, (congrArg (fun p => p.2.elements) h).symm⟩
    · exact absurd (congrArg Prod.fst h) (by simp)

theorem flushF_success_inv {size : ℕ} {s s1 : UState α} {ks : List α}
    {w : Option ℕ} {d : Bool} (hI : Inv size s ks)
    (h : flushF size s w d = (false, s1)) : Inv size s1 ks := by
  have hs1 := flushF_success_eq h
  subst hs1
  refine ⟨?_, ?_, ?_, List.sorted_nil, ?_⟩
  · exact tiledRuns_append size _ s.runs 0 hI.tiled
      (by simp [myBTell, hI.sumCounts])
  · simp [hI.sumCounts]
  · simp [hI.elems]
  · intro k
    have := hI.keys k
    simp only [List.mem_append, List.not_mem_nil, or_false] at this ⊢
    tauto

theorem putOp_inv {size maxElems : ℕ} {s s1 : UState α} {ks : List α} {k : α}
    (hI : Inv size s ks) (h : putOp size maxElems s k = some s1) :
    Inv size s1 (k :: ks) := by
  simp only [putOp] at h
  split_ifs at h with hcap
  · rcases hflush : flushF size s none false with ⟨e, s2⟩
    rw [hflush] at h
    cases e with
    | true => simp at h
    | false =>
      have hI2 := flushF_success_inv hI hflush
      simp only [Option.some.injEq] at h
      subst h
      refine ⟨hI2.tiled, hI2.sumCounts, hI2.elems,
        sorted_treeInsert k _ hI2.sorted, ?_⟩
      intro x
      have := hI2.keys x
      simp only [mem_treeInsert, List.mem_cons] at *
      tauto
  · simp only [Option.some.injEq] at h
    subst h
    refine ⟨hI.tiled, hI.sumCounts, hI.elems, sorted_treeInsert k _ hI.sorted, ?_⟩
    intro x
    have := hI.keys x
    simp only [mem_treeInsert, List.mem_cons] at *
    tauto

theorem runOps_inv {size maxElems : ℕ} :
    ∀ (ops : List (UOp α)) (s s1 : UState α) (ks : List α), Inv size s ks →
      runOps size maxElems s ops = some s1 →
      Inv size s1 (insertedKeys ops ++ ks) := by
  intro ops
  induction ops with
  | nil =>
    intro s s1 ks hI h
    simp only [runOps, Option.some.injEq] at h
    subst h
    simpa [insertedKeys] using hI
  | cons op rest ih =>
    intro s s1 ks hI h
    simp only [runOps] at h
    cases hstep : stepOp size maxElems s op with
    | none => rw [hstep] at h; simp at h
    | some s2 =>
      rw [hstep] at h
      cases op with
      | put k =>
        have hI2 := putOp_inv hI hstep
        have := ih s2 s1 (k :: ks) hI2 h
        refine Inv_congr ?_ this
        intro x
        simp [insertedKeys]
        tauto
      | flush w d =>
        simp only [stepOp] at hstep
        rcases hflush : flushF size s w d with ⟨e, s3⟩
        rw [hflush] at hstep
        cases e with
        | true => simp at hstep
        | false =>
          simp only [Option.some.injEq] at hstep
          have hI2 := flushF_success_inv hI hflush
          rw [hstep] at hI2
          have := ih s2 s1 ks hI2 h
          refine Inv_congr ?_ this
          intro x
          simp [insertedKeys]

theorem reachable_inv {size maxElems : ℕ} {ops : List (UOp α)} {s : UState α}
    (h : runOps size maxElems (initState α) ops = some s) :
    Inv size s (insertedKeys ops) := by
  have := runOps_inv ops (initState α) s [] (initState_inv size) h
  simpa using this

/-! ## Claims C1 and C2 -/

/-- Claim C1: for every sequence of inserted keys and every placement of
flush boundaries, a successful finalize (Unique::get) produces an output that
is strictly ascending by the comparator and contains each distinct inserted
key exactly once, covering all keys from all spilled runs plus the final
live buffer, assuming the external multi-way merge meets its interface
contract (mergeSpec). -/
theorem C1_finalize_sorted_complete (size maxElems : ℕ) (hsize : 0 < size)
    (ops : List (UOp α)) (s : UState α)
    (hrun : runOps size maxElems (initState α) ops = some s)
    (env : GetEnv) (out : List α)
    (hout : (uget size s env).1 = GetResult.mem out ∨
      (uget size s env).1 = GetResult.disk out) :
    out.Sorted (· < ·) ∧ (∀ k, k ∈ out ↔ k ∈ insertedKeys ops) ∧
      ∀ k, k ∈ insertedKeys ops → out.count k = 1 := by
  have hI := reachable_inv hrun
  suffices hsm : out.Sorted (· < ·) ∧ ∀ k, k ∈ out ↔ k ∈ insertedKeys ops by
    exact ⟨hsm.1, hsm.2,
      fun k hk => List.count_eq_one_of_mem hsm.1.nodup ((hsm.2 k).mpr hk)⟩
  unfold uget at hout
  split at hout
  case isTrue hcond =>
    have hfile : s.file = [] := by
      have : size * s.file.length = 0 := hcond.1
      have := Nat.eq_zero_of_mul_eq_zero this
      rcases this with h0 | h0
      · omega
      · exact List.length_eq_zero.mp h0
    have hout2 : out = s.tree := by
      rcases hout with h | h <;> simp at h
      · exact h.symm
    subst hout2
    refine ⟨hI.sorted, fun k => ?_⟩
    have := hI.keys k
    rw [hfile] at this
    simpa using this
  case isFalse hcond =>
    rcases hflush : flushF size s env.wfail env.dynfail with ⟨e, s1⟩
    rw [hflush] at hout
    cases e with
    | true => simp at hout
    | false =>
      have hI1 := flushF_success_inv hI hflush
      have heq := flushF_success_eq hflush
      split_ifs at hout with h1 h2 h3
      · simp at hout
      · simp at hout
      · have hout2 : out = mergeSpec (runContents size s1) := by
          rcases hout with h | h <;> simp at h
          exact h.symm
        subst hout2
        refine ⟨sorted_mergeSpec _, fun k => ?_⟩
        rw [mem_mergeSpec]
        have hflat := flatten_segments size hsize s1.file s1.runs 0 hI1.tiled
          (by simpa using hI1.sumCounts)
        rw [runContents, hflat, List.drop_zero]
        have := hI1.keys k
        rw [heq] at this ⊢
        simpa using this
      · simp at hout

/-- Claim C1 witness: a concrete trace with two runs and duplicate keys
across runs and within the live buffer; finalize delivers [1, 2, 3]. -/
theorem C1_witness :
    (([1, 2, 3] : List ℤ).Sorted (· < ·) ∧
      (∀ k, k ∈ ([1, 2, 3] : List ℤ) ↔
        k ∈ insertedKeys [UOp.put (2 : ℤ), UOp.put 1, UOp.flush none false,
          UOp.put 2, UOp.put 3]) ∧
      ∀ k, k ∈ insertedKeys [UOp.put (2 : ℤ), UOp.put 1, UOp.flush none false,
          UOp.put 2, UOp.put 3] → ([1, 2, 3] : List ℤ).count k = 1) :=
  C1_finalize_sorted_complete 4 10 (by norm_num)
    [UOp.put 2, UOp.put 1, UOp.flush none false, UOp.put 2, UOp.put 3]
    ⟨[2, 3], [1, 2], [⟨0, 2⟩], 2⟩ (by decide)
    ⟨true, true, true, true, none, false⟩ [1, 2, 3] (Or.inr (by decide))

/-- Claim C2: in every reachable state with an empty run directory, finalize
takes the in-memory fast path: it returns the buffer contents by ascending
traversal as a flat region of live-count keys, the temp store is and stays
empty (zero temp-store writes), and the state is unchanged. -/
theorem C2_fastpath_no_io (size maxElems : ℕ) (hsize : 0 < size)
    (ops : List (UOp α)) (s : UState α)
    (hrun : runOps size maxElems (initState α) ops = some s)
    (hdir : s.runs = []) (env : GetEnv) (hflat : env.flatAllocOk = true) :
    uget size s env = (GetResult.mem s.tree, s) ∧ s.tree.Sorted (· < ·) ∧
      s.file = [] ∧ (∀ k, k ∈ s.tree ↔ k ∈ insertedKeys ops) := by
  have hI := reachable_inv hrun
  have hfile : s.file = [] := by
    have := hI.sumCounts
    rw [hdir] at this
    simpa using (List.length_eq_zero.mp this.symm)
  refine ⟨?_, hI.sorted, hfile, fun k => ?_⟩
  · rw [uget, if_pos ⟨by simp [myBTell, hfile], by rw [hflat]⟩]
  · have := hI.keys k
    rw [hfile] at this
    simpa using this

/-- Claim C2 witness: ten distinct keys inserted with a large budget; the
run directory stays empty and finalize is the pure in-memory copy. -/
theorem C2_witness :
    uget 4 (⟨[1, 2, 3, 5, 8], [], [], 0⟩ : UState ℤ) ⟨true, true, true, true, none, false⟩ =
        (GetResult.mem [1, 2, 3, 5, 8], ⟨[1, 2, 3, 5, 8], [], [], 0⟩) ∧
      ([1, 2, 3, 5, 8] : List ℤ).Sorted (· < ·) ∧
      (⟨[1, 2, 3, 5, 8], [], [], 0⟩ : UState ℤ).file = [] ∧
      (∀ k, k ∈ ([1, 2, 3, 5, 8] : List ℤ) ↔
        k ∈ insertedKeys [UOp.put (5 : ℤ), UOp.put 3, UOp.put 1, UOp.put 8,
          UOp.put 2, UOp.put 3]) :=
  C2_fastpath_no_io 4 1000 (by norm_num)
    [UOp.put 5, UOp.put 3, UOp.put 1, UOp.put 8, UOp.put 2, UOp.put 3]
    ⟨[1, 2, 3, 5, 8], [], [], 0⟩ (by decide) rfl
    ⟨true, true, true, true, none, false⟩ rfl

/-! ## Claims C3 and C4 -/

/-- Claim C3 counterexample: from the reachable state with one live key and
an empty run directory, a failing flat-region allocation does NOT make
finalize report failure: Unique::get falls through to the disk path, flushes
the buffer to the temp store (performing temp-store I/O), merges, and
returns success with the disk-path output. -/
theorem C3_counterexample :
    runOps 4 10 (initState ℤ) [UOp.put 5] = some ⟨[5], [], [], 0⟩ ∧
      (⟨[5], [], [], 0⟩ : UState ℤ).runs = [] ∧
      uget 4 (⟨[5], [], [], 0⟩ : UState ℤ) ⟨false, true, true, true, none, false⟩ =
        (GetResult.disk [5], ⟨[], [5], [⟨0, 1⟩], 1⟩) := by
  refine ⟨by decide, rfl, by decide⟩

/-- Claim C3 amended: when the flat-region allocation fails, finalize falls
back to the disk-based path (flush every remaining key, then merge) and
reports success with the correct merged output whenever every later step
succeeds; it reports failure when a later allocation (for instance the sort
buffer) fails. -/
theorem C3_fallback_characterization (size maxElems : ℕ) (hsize : 0 < size)
    (ops : List (UOp α)) (s : UState α)
    (hrun : runOps size maxElems (initState α) ops = some s)
    (env : GetEnv) (hflat : env.flatAllocOk = false)
    (hw : env.wfail = none) (hd : env.dynfail = false) :
    (env.outfileOk = true → env.sortBufOk = true → env.mergeOk = true →
      ∃ out, (uget size s env).1 = GetResult.disk out ∧ out.Sorted (· < ·) ∧
        ∀ k, k ∈ out ↔ k ∈ insertedKeys ops) ∧
    (env.sortBufOk = false → (uget size s env).1 = GetResult.fail) := by
  have hI := reachable_inv hrun
  have hcond : ¬ (myBTell size s = 0 ∧ env.flatAllocOk = true) := by
    rw [hflat]; simp
  rcases hflush : flushF size s env.wfail env.dynfail with ⟨e, s1⟩
  have he : e = false := by
    rw [hw, hd] at hflush
    simp only [flushF] at hflush
    exact (congrArg Prod.fst hflush).symm
  subst he
  have hI1 := flushF_success_inv hI hflush
  have heq := flushF_success_eq hflush
  constructor
  · intro ho hs hm
    refine ⟨mergeSpec (runContents size s1), ?_, sorted_mergeSpec _, fun k => ?_⟩
    · rw [uget, if_neg (by rw [hflat]; simp), hflush, ho, hs, hm]
      simp
    · rw [mem_mergeSpec]
      have hflat2 := flatten_segments size hsize s1.file s1.runs 0 hI1.tiled
        (by simpa using hI1.sumCounts)
      rw [runContents, hflat2, List.drop_zero]
      have := hI1.keys k
      rw [heq] at this ⊢
      simpa using this
  · intro hs
    rw [uget, if_neg (by rw [hflat]; simp), hflush, hs]
    by_cases ho : env.outfileOk = false <;> simp [ho]

/-- Claim C3 amended witness: at a concrete reachable state, with the flat
allocation failing and later steps succeeding, finalize succeeds with the
disk output; with the sort-buffer allocation also failing, it fails. -/
theorem C3_fallback_witness :
    ((⟨false, true, true, true, none, false⟩ : GetEnv).outfileOk = true →
      (⟨false, true, true, true, none, false⟩ : GetEnv).sortBufOk = true →
      (⟨false, true, true, true, none, false⟩ : GetEnv).mergeOk = true →
      ∃ out, (uget 4 (⟨[5], [], [], 0⟩ : UState ℤ)
          ⟨false, true, true, true, none, false⟩).1 = GetResult.disk out ∧
        out.Sorted (· < ·) ∧
        ∀ k, k ∈ out ↔ k ∈ insertedKeys [UOp.put (5 : ℤ)]) ∧
    ((⟨false, true, true, true, none, false⟩ : GetEnv).sortBufOk = false →
      (uget 4 (⟨[5], [], [], 0⟩ : UState ℤ)
          ⟨false, true, true, true, none, false⟩).1 = GetResult.fail) :=
  C3_fallback_characterization 4 10 (by norm_num) [UOp.put 5]
    ⟨[5], [], [], 0⟩ (by decide) ⟨false, true, true, true, none, false⟩ rfl rfl rfl

/-- Claim C4 counterexample: a failed flush (first write fails) from the
reachable state holding one live key leaves the run directory empty but has
already added the attempted count to the elements counter: the directory
counts sum to 0 while elements is 1, so they do not describe the same set
of completed runs. -/
theorem C4_counterexample :
    runOps 4 10 (initState ℤ) [UOp.put 5] = some ⟨[5], [], [], 0⟩ ∧
      flushF 4 (⟨[5], [], [], 0⟩ : UState ℤ) (some 0) false = (true, ⟨[5], [], [], 1⟩) ∧
      ((⟨[5], [], [], 1⟩ : UState ℤ).runs.map Buffpek.count).sum = 0 ∧
      (⟨[5], [], [], 1⟩ : UState ℤ).elements = 1 := by
  refine ⟨by decide, by decide, rfl, rfl⟩

/-- Claim C4 amended: after every sequence of successful operations, the run
directory exactly tiles the temp store (offsets non-overlapping and
increasing by one run size each, hence pairwise ordered) and the counts sum
to the elements counter; a failed flush leaves the directory unmodified but
has already added the attempted count of the live buffer to elements. -/
theorem C4_directory_invariant (size maxElems : ℕ) (ops : List (UOp α))
    (s : UState α) (hrun : runOps size maxElems (initState α) ops = some s) :
    tiledRuns size s.runs 0 ∧
      s.runs.Pairwise (fun a b => a.file_pos + size * a.count ≤ b.file_pos) ∧
      (s.runs.map Buffpek.count).sum = s.elements ∧
      ∀ (w : Option ℕ) (d : Bool) (s1 : UState α), flushF size s w d = (true, s1) →
        s1.runs = s.runs ∧ s1.elements = s.elements + s.tree.length := by
  have hI := reachable_inv hrun
  exact ⟨hI.tiled, tiledRuns_pairwise size s.runs 0 hI.tiled,
    hI.sumCounts.trans hI.elems.symm, fun w d s1 h => flushF_fail_eq h⟩

/-- Claim C4 amended witness: concrete trace with two flushed runs; the
directory tiles the store, counts sum to elements, and a concretely failed
flush leaves the directory unchanged while bumping elements. -/
theorem C4_directory_witness :
    tiledRuns 4 (⟨[7], [3, 5, 2], [⟨0, 2⟩, ⟨8, 1⟩], 3⟩ : UState ℤ).runs 0 ∧
      (⟨[7], [3, 5, 2], [⟨0, 2⟩, ⟨8, 1⟩], 3⟩ : UState ℤ).runs.Pairwise
        (fun a b => a.file_pos + 4 * a.count ≤ b.file_pos) ∧
      ((⟨[7], [3, 5, 2], [⟨0, 2⟩, ⟨8, 1⟩], 3⟩ : UState ℤ).runs.map Buffpek.count).sum =
        (⟨[7], [3, 5, 2], [⟨0, 2⟩, ⟨8, 1⟩], 3⟩ : UState ℤ).elements ∧
      ∀ (w : Option ℕ) (d : Bool) (s1 : UState ℤ),
        flushF 4 (⟨[7], [3, 5, 2], [⟨0, 2⟩, ⟨8, 1⟩], 3⟩ : UState ℤ) w d = (true, s1) →
          s1.runs = (⟨[7], [3, 5, 2], [⟨0, 2⟩, ⟨8, 1⟩], 3⟩ : UState ℤ).runs ∧
            s1.elements = (⟨[7], [3, 5, 2], [⟨0, 2⟩, ⟨8, 1⟩], 3⟩ : UState ℤ).elements +
              (⟨[7], [3, 5, 2], [⟨0, 2⟩, ⟨8, 1⟩], 3⟩ : UState ℤ).tree.length :=
  C4_directory_invariant 4 2
    [UOp.put 3, UOp.put 5, UOp.flush none false, UOp.put 2, UOp.flush none false, UOp.put 7]
    ⟨[7], [3, 5, 2], [⟨0, 2⟩, ⟨8, 1⟩], 3⟩ (by decide)

/-! ## Claims C9, C6, C5 -/

/-- Claim C9 counterexample: key_size = 8 and memory_budget = 1 are both
positive, yet the divisor max_elements_in_tree is 0 (the C source then
divides nkeys by zero at line 274). -/
theorem C9_counterexample :
    (0 < 8 ∧ 0 < 1) ∧ max_elements_in_tree 8 1 = 0 :=
  ⟨⟨by norm_num, by norm_num⟩, rfl⟩

/-- Claim C9 amended: the divisor max_elements_in_tree used by
Unique::get_use_cost is nonzero exactly when the memory budget is at least
the per-element overhead ALIGN_SIZE(sizeof(TREE_ELEMENT) + key_size); for
positive budgets below that overhead it is zero and the quotient
nkeys / max_elements_in_tree of the source is a division by zero. -/
theorem C9_divisor_characterization (key_size max_in_memory_size : ℕ) :
    0 < max_elements_in_tree key_size max_in_memory_size ↔
      ALIGN_SIZE (sizeof_TREE_ELEMENT + key_size) ≤ max_in_memory_size := by
  have hpos : 0 < ALIGN_SIZE (sizeof_TREE_ELEMENT + key_size) := by
    simp only [ALIGN_SIZE, sizeof_TREE_ELEMENT]
    omega
  rw [max_elements_in_tree, Nat.div_pos_iff]
  omega

/-- Claim C6 counterexample: with key_size = 8 and a budget of 1024 bytes
(max_elements_in_tree = 32, so nkeys = 64 gives 2 full runs of 256 bytes
each and an empty remainder), the code adds 0 for the run writes, because
key_size*max_elements_in_tree / IO_SIZE truncates to 0 before ceil is
applied, while the claimed ceil of the exact quotient adds 2. -/
theorem C6_counterexample :
    max_elements_in_tree 8 1024 = 32 ∧ (64 : ℕ) / 32 = 2 ∧ (64 : ℕ) % 32 = 0 ∧
      write_runs_term 2 32 0 8 = 0 ∧ claim_write_runs_term 2 32 0 8 = 2 := by
  refine ⟨rfl, rfl, rfl, ?_, ?_⟩
  · show DISK_SEEK_BASE_COST * ((2 : ℕ) : ℝ) * ((⌈((8 * 32 / IO_SIZE : ℕ) : ℝ)⌉ : ℤ) : ℝ) +
      DISK_SEEK_BASE_COST * ((⌈((8 * 0 / IO_SIZE : ℕ) : ℝ)⌉ : ℤ) : ℝ) = 0
    norm_num [IO_SIZE]
  · show ((2 : ℕ) : ℝ) * ((⌈((8 : ℕ) : ℝ) * ((32 : ℕ) : ℝ) / ((IO_SIZE : ℕ) : ℝ)⌉ : ℤ) : ℝ) +
      ((⌈((8 : ℕ) : ℝ) * ((0 : ℕ) : ℝ) / ((IO_SIZE : ℕ) : ℝ)⌉ : ℤ) : ℝ) = 2
    have h1 : ((8 : ℕ) : ℝ) * ((32 : ℕ) : ℝ) / ((IO_SIZE : ℕ) : ℝ) = 256 / 4096 := by
      norm_num [IO_SIZE]
    have h2 : (⌈(256 / 4096 : ℝ)⌉ : ℤ) = 1 := by
      rw [Int.ceil_eq_iff]
      norm_num
    rw [h1, h2]
    norm_num [IO_SIZE]

/-- Claim C6 amended: the write-cost term the code adds is
DISK_SEEK_BASE_COST times (n_full_trees * ((key_size*max_elements)/IO_SIZE)
+ (key_size*last_elems)/IO_SIZE) where both quotients are truncating
unsigned integer divisions (the subsequent ceil is the identity on an
integral value); in particular runs smaller than one I/O block contribute
nothing. -/
theorem C6_write_term_truncated (n_full maxel lastel key_size : ℕ) :
    write_runs_term n_full maxel lastel key_size =
      DISK_SEEK_BASE_COST *
        ((n_full * (key_size * maxel / IO_SIZE) + key_size * lastel / IO_SIZE : ℕ) : ℝ) := by
  rw [write_runs_term]
  generalize key_size * maxel / IO_SIZE = q1
  generalize key_size * lastel / IO_SIZE = q2
  rw [Int.ceil_natCast, Int.ceil_natCast]
  push_cast
  ring

/-- Claim C5 (code bug): with key_size = 8 and a budget of 16384 bytes,
nkeys = 512 gives max_elements_in_tree = 512, one full run and an empty
remainder; the tree-build term the code computes differs from the claimed
2*log2((N+1)!) per full run, because line 280 multiplies by n_full_trees
without the factor 2 that the function comment (lines 242-247) documents;
the code value is strictly smaller. -/
theorem C5_tree_term_mismatch :
    max_elements_in_tree 8 16384 = 512 ∧ (512 : ℕ) / 512 = 1 ∧ (512 : ℕ) % 512 = 0 ∧
      tree_build_term 1 512 0 < claim_tree_build_term 1 512 0 := by
  refine ⟨rfl, rfl, rfl, ?_⟩
  have hlog2 : 0 < Real.log 2 := Real.log_pos (by norm_num)
  have hL : 0 < log2_n_fact (((512 : ℕ) : ℝ) + 1) := by
    rw [log2_n_fact]
    apply div_pos _ hlog2
    have hpi : (3 : ℝ) < Real.pi := Real.pi_gt_three
    have h1 : 0 < Real.log (2 * Real.pi * (((512 : ℕ) : ℝ) + 1)) := by
      apply Real.log_pos
      push_cast
      nlinarith
    have h2 : 0 < Real.log ((((512 : ℕ) : ℝ) + 1) / Real.exp 1) := by
      apply Real.log_pos
      rw [lt_div_iff (Real.exp_pos 1)]
      have := Real.exp_one_lt_d9
      push_cast
      nlinarith
    positivity
  rw [tree_build_term, claim_tree_build_term, TIME_FOR_COMPARE_ROWID]
  rw [if_pos (by norm_num)]
  rw [div_lt_div_iff_of_pos_right (by norm_num : (0 : ℝ) < 10)]
  push_cast
  push_cast at hL
  norm_num at hL ⊢
  linarith [hL]

/-! ## Claim C10 -/

/-- Claim C10: whenever the run count is at or above the high-fan-in
threshold (maxbuffer at least MERGEBUFF2), one pass of the merge-cost
simulation strictly decreases maxbuffer as the code actually updates it:
line 205 assigns maxbuffer = (uint)lastbuff - 1, and since lastbuff is a
uint pointer advanced from the null pointer once per collapse, the assigned
value is 4*collapses - 1; this is strictly below the old maxbuffer, so the
outer while loop of get_merge_many_buffs_cost terminates and the function
is total. -/
theorem C10_pass_strictly_decreases (es mb : ℕ) (l : List ℕ)
    (h : MERGEBUFF2 ≤ mb) :
    4 * (passLoop es mb 0 l 0).2.2.1 - 1 < mb := by
  have hb := (passLoop es mb 0 l 0).2.2.2
  simp only [MERGEBUFF2] at h
  split_ifs at hb <;> omega

/-- Claim C10 witness: at the smallest threshold value, the pass over 16
one-element runs performs 2 collapses and leaves maxbuffer = 7 < 15. -/
theorem C10_witness :
    MERGEBUFF2 ≤ 15 ∧
      4 * (passLoop 1 15 0 (List.replicate 15 1 ++ [0]) 0).2.2.1 - 1 < 15 :=
  ⟨by decide, C10_pass_strictly_decreases 1 15 (List.replicate 15 1 ++ [0]) (by decide)⟩

/-! ## Claim C7: evaluation of both simulations on 16 one-element runs -/

theorem sim16_upd1 : mergeUpdate (List.replicate 15 1 ++ [0]) 0 6 =
    [1, 1, 1, 1, 1, 1, 7, 1, 1, 1, 1, 1, 1, 1, 1, 0] := by decide

theorem sim16_mt1 : mergeTotal (List.replicate 15 1 ++ [0]) 0 6 = 7 := by decide

theorem sim16_mt2 : mergeTotal [1, 1, 1, 1, 1, 1, 7, 1, 1, 1, 1, 1, 1, 1, 1, 0] 7 15 = 8 := by
  decide

theorem sim16_mt3 : mergeTotal [1, 1, 1, 1, 1, 1, 7, 1, 1, 1, 1, 1, 1, 1, 1, 8] 0 7 = 14 := by
  decide

theorem sim16_pass_fst : (passLoop 1 15 0 (List.replicate 15 1 ++ [0]) 0).1 =
    chargeOf 1 7 7 + chargeOf 1 8 9 := by
  rw [passLoop]
  norm_num [sim16_upd1]
  rw [passLoop]
  norm_num [mergeBuffersCost, sim16_mt1, sim16_mt2]

theorem sim16_pass_snd : (passLoop 1 15 0 (List.replicate 15 1 ++ [0]) 0).2.1 =
    [1, 1, 1, 1, 1, 1, 7, 1, 1, 1, 1, 1, 1, 1, 1, 8] := by
  rw [passLoop]
  norm_num [sim16_upd1]
  rw [passLoop]
  norm_num
  decide

theorem sim16_pass_cnt : (passLoop 1 15 0 (List.replicate 15 1 ++ [0]) 0).2.2.1 = 2 := by
  rw [passLoop]
  norm_num [sim16_upd1]
  rw [passLoop]
  norm_num

theorem sim16_pass : passLoop 1 15 0 (List.replicate 15 1 ++ [0]) 0 =
    (chargeOf 1 7 7 + chargeOf 1 8 9,
      [1, 1, 1, 1, 1, 1, 7, 1, 1, 1, 1, 1, 1, 1, 1, 8], ⟨2, by decide⟩) :=
  Prod.ext sim16_pass_fst (Prod.ext sim16_pass_snd (Subtype.ext sim16_pass_cnt))

/-- The code simulation on 15 full one-element runs plus an empty remainder:
one pass collapses slots 0-6 (total 7) and the nine slots 7-15 (total 8,
beyond the fan-in limit); the pointer-cast update of line 205 then sets
maxbuffer to 4*2 - 1 = 7, so the final merge reads the mostly stale slots
0-7 (totalling 14, fan-in 8) rather than the two pass outputs. -/
theorem sim16_code : get_merge_many_buffs_cost 15 1 0 1 =
    chargeOf 1 7 7 + chargeOf 1 8 9 + chargeOf 1 14 8 := by
  rw [get_merge_many_buffs_cost]
  rw [manyLoop, sim16_pass]
  norm_num [MERGEBUFF2]
  rw [manyLoop]
  norm_num [MERGEBUFF2, mergeBuffersCost, sim16_mt3]

theorem sim16_take1 : List.take MERGEBUFF [1, 1, 1, 1, 1, 1, 1, 1, 1, 1, 1, 1, 1, 1, 1, 0] =
    [1, 1, 1, 1, 1, 1, 1] := by decide

theorem sim16_drop1 : List.drop MERGEBUFF [1, 1, 1, 1, 1, 1, 1, 1, 1, 1, 1, 1, 1, 1, 1, 0] =
    [1, 1, 1, 1, 1, 1, 1, 1, 0] := by decide

theorem sim16_take2 : List.take MERGEBUFF [1, 1, 1, 1, 1, 1, 1, 1, 0] =
    [1, 1, 1, 1, 1, 1, 1] := by decide

theorem sim16_drop2 : List.drop MERGEBUFF [1, 1, 1, 1, 1, 1, 1, 1, 0] = [1, 0] := by decide

theorem sim16_take3 : List.take MERGEBUFF [1, 0] = [1, 0] := by decide

theorem sim16_drop3 : List.drop MERGEBUFF ([1, 0] : List ℕ) = [] := by decide

theorem sim16_cp_nil_fst : (claimPass 1 ([] : List ℕ)).1 = 0 := by rw [claimPass]

theorem sim16_cp_nil_snd : (claimPass 1 ([] : List ℕ)).2.1 = [] := by rw [claimPass]

theorem sim16_cp3_fst : (claimPass 1 [1, 0]).1 = chargeOf 1 1 2 := by
  rw [claimPass]
  simp only []
  rw [sim16_take3, sim16_drop3, sim16_cp_nil_fst]
  norm_num

theorem sim16_cp3_snd : (claimPass 1 [1, 0]).2.1 = [1] := by
  rw [claimPass]
  simp only []
  rw [sim16_take3, sim16_drop3, sim16_cp_nil_snd]
  norm_num

theorem sim16_cp2_fst : (claimPass 1 [1, 1, 1, 1, 1, 1, 1, 1, 0]).1 =
    chargeOf 1 7 7 + chargeOf 1 1 2 := by
  rw [claimPass]
  simp only []
  rw [sim16_take2, sim16_drop2, sim16_cp3_fst]
  norm_num

theorem sim16_cp2_snd : (claimPass 1 [1, 1, 1, 1, 1, 1, 1, 1, 0]).2.1 = [7, 1] := by
  rw [claimPass]
  simp only []
  rw [sim16_take2, sim16_drop2, sim16_cp3_snd]
  norm_num

theorem sim16_cp1_fst : (claimPass 1 [1, 1, 1, 1, 1, 1, 1, 1, 1, 1, 1, 1, 1, 1, 1, 0]).1 =
    chargeOf 1 7 7 + (chargeOf 1 7 7 + chargeOf 1 1 2) := by
  rw [claimPass]
  simp only []
  rw [sim16_take1, sim16_drop1, sim16_cp2_fst]
  norm_num

theorem sim16_cp1_snd : (claimPass 1 [1, 1, 1, 1, 1, 1, 1, 1, 1, 1, 1, 1, 1, 1, 1, 0]).2.1 =
    [7, 7, 1] := by
  rw [claimPass]
  simp only []
  rw [sim16_take1, sim16_drop1, sim16_cp2_snd]
  norm_num

/-- The claimed simulation on the same input: one pass collapses the groups
7+7+2 (all within the fan-in limit) into runs of 7, 7 and 1 elements, then
the final collapse reads those three outputs (totalling 15). -/
theorem sim16_claim : claimSim 1 (List.replicate 15 1 ++ [0]) =
    chargeOf 1 7 7 + (chargeOf 1 7 7 + chargeOf 1 1 2) + chargeOf 1 15 3 := by
  have hl0 : List.replicate 15 1 ++ [0] = [1, 1, 1, 1, 1, 1, 1, 1, 1, 1, 1, 1, 1, 1, 1, 0] := by
    decide
  rw [hl0, claimSim]
  norm_num [MERGEBUFF2, sim16_cp1_fst, sim16_cp1_snd]
  rw [claimSim]
  norm_num [MERGEBUFF2]

/-- Claim C7 counterexample: on 15 full runs of one element plus an empty
remainder (16 runs, es = 1), the code simulation does not behave as the
claim describes: the code value (tail group of 9 runs, then the
pointer-cast maxbuffer update making the final collapse read the mostly
stale slots 0..7) is strictly larger than the claimed value (groups of at
most 7 runs, pass outputs fed to the final collapse), so they differ. -/
theorem C7_counterexample :
    get_merge_many_buffs_cost 15 1 0 1 ≠ claimSim 1 (List.replicate 15 1 ++ [0]) := by
  rw [sim16_code, sim16_claim]
  apply ne_of_gt
  rw [← sub_pos]
  have hlog2 : 0 < Real.log 2 := Real.log_pos (by norm_num)
  have hlog9 : Real.log 9 = 2 * Real.log 3 := by
    rw [show (9 : ℝ) = 3 ^ 2 by norm_num, Real.log_pow]
    push_cast
    ring
  have hlog8 : Real.log 8 = 3 * Real.log 2 := by
    rw [show (8 : ℝ) = 2 ^ 3 by norm_num, Real.log_pow]
    push_cast
    ring
  have hkey : Real.log 2 ≤ 41 * Real.log 2 + Real.log 3 - 7 * Real.log 7 := by
    have h7 : Real.log 823543 = 7 * Real.log 7 := by
      rw [show (823543 : ℝ) = 7 ^ 7 by norm_num, Real.log_pow]
      push_cast
      ring
    have h240 : Real.log 3298534883328 = 40 * Real.log 2 + Real.log 3 := by
      rw [show (3298534883328 : ℝ) = 2 ^ 40 * 3 by norm_num,
        Real.log_mul (by norm_num) (by norm_num), Real.log_pow]
      push_cast
      ring
    have hle : Real.log 823543 ≤ Real.log 3298534883328 :=
      Real.log_le_log (by norm_num) (by norm_num)
    linarith
  have hexpand : chargeOf 1 7 7 + chargeOf 1 8 9 + chargeOf 1 14 8 -
      (chargeOf 1 7 7 + (chargeOf 1 7 7 + chargeOf 1 1 2) + chargeOf 1 15 3) =
      (41 * Real.log 2 + Real.log 3 - 7 * Real.log 7) / (10 * Real.log 2) - 2 / 4096 := by
    simp only [chargeOf, IO_SIZE, TIME_FOR_COMPARE_ROWID]
    push_cast
    rw [hlog9, hlog8]
    field_simp
    ring
  rw [hexpand]
  have hdiv : (1 : ℝ) / 10 ≤ (41 * Real.log 2 + Real.log 3 - 7 * Real.log 7) /
      (10 * Real.log 2) := by
    rw [le_div_iff (by positivity)]
    linarith
  linarith

/-! ## Claim C8: evaluation of get_use_cost at the counterexample inputs -/

theorem log_div_e (x : ℝ) (hx : 0 < x) : Real.log (x / Real.exp 1) = Real.log x - 1 := by
  rw [Real.log_div (ne_of_gt hx) (ne_of_gt (Real.exp_pos 1)), Real.log_exp]

theorem chargeOf_nonneg (es tot n : ℕ) : 0 ≤ chargeOf es tot n := by
  rw [chargeOf, TIME_FOR_COMPARE_ROWID]
  have hlogn : 0 ≤ Real.log (n : ℝ) := by
    cases n with
    | zero => simp
    | succ m =>
      apply Real.log_nonneg
      push_cast
      linarith
  have hlog2 : 0 < Real.log 2 := Real.log_pos (by norm_num)
  have h1 : (0 : ℝ) ≤ 2 * ((tot : ℝ) * (es : ℝ)) / (IO_SIZE : ℕ) := by positivity
  have h2 : (0 : ℝ) ≤ (tot : ℝ) * Real.log (n : ℝ) / (10 * Real.log 2) := by positivity
  exact add_nonneg h1 h2

theorem c8_l1 : List.replicate 1 512 ++ [511] = [512, 511] := by decide

theorem c8_l2 : List.replicate 2 512 ++ [0] = [512, 512, 0] := by decide

theorem c8_l3 : List.replicate 2 1024 ++ [0] = [1024, 1024, 0] := by decide

theorem c8_l4 : List.replicate 1 2048 ++ [0] = [2048, 0] := by decide

theorem c8_mt1 : mergeTotal [512, 511] 0 1 = 1023 := by decide

theorem c8_mt2 : mergeTotal [512, 512, 0] 0 2 = 1024 := by decide

theorem c8_mt3 : mergeTotal [1024, 1024, 0] 0 2 = 2048 := by decide

theorem c8_mt4 : mergeTotal [2048, 0] 0 1 = 2048 := by decide

theorem c8_m1 : get_merge_many_buffs_cost 1 512 511 1 = chargeOf 1 1023 2 := by
  rw [get_merge_many_buffs_cost, c8_l1, manyLoop]
  norm_num [MERGEBUFF2, mergeBuffersCost, c8_mt1]

theorem c8_m2 : get_merge_many_buffs_cost 2 512 0 1 = chargeOf 1 1024 3 := by
  rw [get_merge_many_buffs_cost, c8_l2, manyLoop]
  norm_num [MERGEBUFF2, mergeBuffersCost, c8_mt2]

theorem c8_m3 : get_merge_many_buffs_cost 2 1024 0 8 = chargeOf 8 2048 3 := by
  rw [get_merge_many_buffs_cost, c8_l3, manyLoop]
  norm_num [MERGEBUFF2, mergeBuffersCost, c8_mt3]

theorem c8_m4 : get_merge_many_buffs_cost 1 2048 0 8 = chargeOf 8 2048 2 := by
  rw [get_merge_many_buffs_cost, c8_l4, manyLoop]
  norm_num [MERGEBUFF2, mergeBuffersCost, c8_mt4]

theorem c8_wA : write_runs_term 1 512 511 1 = 0 := by
  rw [write_runs_term]
  norm_num [IO_SIZE]

theorem c8_wB : write_runs_term 2 512 0 1 = 0 := by
  rw [write_runs_term]
  norm_num [IO_SIZE]

theorem c8_wC : write_runs_term 2 1024 0 8 = 2 := by
  rw [write_runs_term]
  norm_num [IO_SIZE, DISK_SEEK_BASE_COST]

theorem c8_wD : write_runs_term 1 2048 0 8 = 2 := by
  rw [write_runs_term]
  norm_num [IO_SIZE, DISK_SEEK_BASE_COST]

theorem c8_rA : read_result_term 1023 1 = 1 := by
  rw [read_result_term, IO_SIZE]
  have h : (⌈((1 : ℕ) : ℝ) * ((1023 : ℕ) : ℝ) / ((4096 : ℕ) : ℝ)⌉ : ℤ) = 1 := by
    rw [Int.ceil_eq_iff]
    push_cast
    norm_num
  rw [h]
  norm_num

theorem c8_rB : read_result_term 1024 1 = 1 := by
  rw [read_result_term, IO_SIZE]
  have h : (⌈((1 : ℕ) : ℝ) * ((1024 : ℕ) : ℝ) / ((4096 : ℕ) : ℝ)⌉ : ℤ) = 1 := by
    rw [Int.ceil_eq_iff]
    push_cast
    norm_num
  rw [h]
  norm_num

theorem c8_rCD : read_result_term 2048 8 = 4 := by
  rw [read_result_term, IO_SIZE]
  have h : ((8 : ℕ) : ℝ) * ((2048 : ℕ) : ℝ) / ((4096 : ℕ) : ℝ) = 4 := by norm_num
  rw [h]
  norm_num

theorem c8_me1 : max_elements_in_tree 1 16384 = 512 := by decide

theorem c8_me2 : max_elements_in_tree 8 32768 = 1024 := by decide

theorem c8_me3 : max_elements_in_tree 8 65536 = 2048 := by decide

theorem c8_costA : get_use_cost 1023 1 16384 =
    tree_build_term 1 512 511 + chargeOf 1 1023 2 + 1 := by
  rw [get_use_cost, c8_me1]
  norm_num
  rw [c8_m1, if_neg (not_lt.mpr (chargeOf_nonneg 1 1023 2))]
  rw [c8_wA, c8_rA]
  ring

theorem c8_costB : get_use_cost 1024 1 16384 =
    tree_build_term 2 512 0 + chargeOf 1 1024 3 + 1 := by
  rw [get_use_cost, c8_me1]
  norm_num
  rw [c8_m2, if_neg (not_lt.mpr (chargeOf_nonneg 1 1024 3))]
  rw [c8_wB, c8_rB]
  ring

theorem c8_costC : get_use_cost 2048 8 32768 =
    tree_build_term 2 1024 0 + 2 + chargeOf 8 2048 3 + 4 := by
  rw [get_use_cost, c8_me2]
  norm_num
  rw [c8_m3, if_neg (not_lt.mpr (chargeOf_nonneg 8 2048 3))]
  rw [c8_wC, c8_rCD]

theorem c8_costD : get_use_cost 2048 8 65536 =
    tree_build_term 1 2048 0 + 2 + chargeOf 8 2048 2 + 4 := by
  rw [get_use_cost, c8_me3]
  norm_num
  rw [c8_m4, if_neg (not_lt.mpr (chargeOf_nonneg 8 2048 2))]
  rw [c8_wD, c8_rCD]

/-- Claim C8 counterexample: both monotonicity directions fail.
With key_size = 1 and memory_budget = 16384 (512 elements per run),
increasing key_count from 1023 to 1024 strictly DECREASES the estimate
(crossing the run boundary swaps the doubled last-tree term for the
single-counted full-tree term of uniques.cc line 280).  With key_count =
2048 and key_size = 8, increasing memory_budget from 32768 to 65536
strictly INCREASES the estimate. -/
theorem C8_counterexample :
    get_use_cost 1024 1 16384 < get_use_cost 1023 1 16384 ∧
      get_use_cost 2048 8 32768 < get_use_cost 2048 8 65536 := by
  have hlog2 : 0 < Real.log 2 := Real.log_pos (by norm_num)
  have hl2lo : 0.6931471803 < Real.log 2 := Real.log_two_gt_d9
  have hl2hi : Real.log 2 < 0.6931471808 := Real.log_two_lt_d9
  have hpiu : Real.pi < 3.15 := Real.pi_lt_315
  have hpil : 3 < Real.pi := Real.pi_gt_three
  have h3b : 16 * Real.log 3 ≤ 24 * Real.log 2 + 1 := by
    have h9 : Real.log 9 = 2 * Real.log 3 := by
      rw [show (9 : ℝ) = 3 ^ 2 by norm_num, Real.log_pow]
      push_cast
      ring
    have h98 : Real.log 9 = 3 * Real.log 2 + Real.log (9 / 8) := by
      rw [show (9 : ℝ) = 8 * (9 / 8) by norm_num,
        Real.log_mul (by norm_num) (by norm_num),
        show (8 : ℝ) = 2 ^ 3 by norm_num, Real.log_pow]
      push_cast
      ring
    have hle : Real.log (9 / 8) ≤ 9 / 8 - 1 := Real.log_le_sub_one_of_pos (by norm_num)
    linarith
  constructor
  · rw [c8_costB, c8_costA]
    have hexp : (tree_build_term 1 512 511 + chargeOf 1 1023 2 + 1
        - (tree_build_term 2 512 0 + chargeOf 1 1024 3 + 1)) * (10 * Real.log 2) =
        Real.log (2 * Real.pi * 512) + 1024 * (Real.log 512 - 1)
        - Real.log (2 * Real.pi * 513) / 2 - 513 * (Real.log 513 - 1)
        - Real.log (2 * Real.pi) + 2 - (20 / 4096) * Real.log 2 + 1023 * Real.log 2
        - 1024 * Real.log 3 := by
      simp only [tree_build_term, chargeOf, log2_n_fact, TIME_FOR_COMPARE_ROWID, IO_SIZE]
      norm_num
      rw [log_div_e 512 (by norm_num), log_div_e 513 (by norm_num)]
      field_simp
      ring
    have h512eq : Real.log 512 = 9 * Real.log 2 := by
      rw [show (512 : ℝ) = 2 ^ 9 by norm_num, Real.log_pow]
      push_cast
      ring
    have h513 : Real.log 513 ≤ 10 * Real.log 2 := by
      have h1 : Real.log 513 ≤ Real.log 1024 := by
        apply Real.log_le_log (by norm_num) (by norm_num)
      have h2 : Real.log 1024 = 10 * Real.log 2 := by
        rw [show (1024 : ℝ) = 2 ^ 10 by norm_num, Real.log_pow]
        push_cast
        ring
      linarith
    have h2pi512 : Real.log 512 ≤ Real.log (2 * Real.pi * 512) := by
      apply Real.log_le_log (by norm_num)
      nlinarith
    have h2pi513 : Real.log (2 * Real.pi * 513) ≤ 12 * Real.log 2 := by
      have h1 : Real.log (2 * Real.pi * 513) ≤ Real.log 4096 := by
        apply Real.log_le_log (by nlinarith) (by nlinarith)
      have h2 : Real.log 4096 = 12 * Real.log 2 := by
        rw [show (4096 : ℝ) = 2 ^ 12 by norm_num, Real.log_pow]
        push_cast
        ring
      linarith
    have h2pi : Real.log (2 * Real.pi) ≤ 3 * Real.log 2 := by
      have h1 : Real.log (2 * Real.pi) ≤ Real.log 8 := by
        apply Real.log_le_log (by nlinarith) (by nlinarith)
      have h2 : Real.log 8 = 3 * Real.log 2 := by
        rw [show (8 : ℝ) = 2 ^ 3 by norm_num, Real.log_pow]
        push_cast
        ring
      linarith
    rw [← sub_pos]
    have hmul : 0 < (tree_build_term 1 512 511 + chargeOf 1 1023 2 + 1
        - (tree_build_term 2 512 0 + chargeOf 1 1024 3 + 1)) * (10 * Real.log 2) := by
      rw [hexp]
      linarith
    rcases mul_pos_iff.mp hmul with ⟨h, _⟩ | ⟨_, h2⟩
    · exact h
    · linarith
  · rw [c8_costC, c8_costD]
    have hexp : (tree_build_term 1 2048 0 + 2 + chargeOf 8 2048 2 + 4
        - (tree_build_term 2 1024 0 + 2 + chargeOf 8 2048 3 + 4)) * (10 * Real.log 2) =
        Real.log (2 * Real.pi * 2049) / 2 + 2049 * (Real.log 2049 - 1)
        - Real.log (2 * Real.pi * 1025) - 2050 * (Real.log 1025 - 1)
        + 2048 * Real.log 2 - 2048 * Real.log 3 := by
      simp only [tree_build_term, chargeOf, log2_n_fact, TIME_FOR_COMPARE_ROWID, IO_SIZE]
      norm_num
      rw [log_div_e 2049 (by norm_num), log_div_e 1025 (by norm_num)]
      field_simp
      ring
    have h2049 : 11 * Real.log 2 ≤ Real.log 2049 := by
      have h1 : Real.log 2048 ≤ Real.log 2049 := by
        apply Real.log_le_log (by norm_num) (by norm_num)
      have h2 : Real.log 2048 = 11 * Real.log 2 := by
        rw [show (2048 : ℝ) = 2 ^ 11 by norm_num, Real.log_pow]
        push_cast
        ring
      linarith
    have h2pi2049 : 0 ≤ Real.log (2 * Real.pi * 2049) := by
      apply Real.log_nonneg
      nlinarith
    have h2pi1025 : Real.log (2 * Real.pi * 1025) ≤ 13 * Real.log 2 := by
      have h1 : Real.log (2 * Real.pi * 1025) ≤ Real.log 8192 := by
        apply Real.log_le_log (by nlinarith) (by nlinarith)
      have h2 : Real.log 8192 = 13 * Real.log 2 := by
        rw [show (8192 : ℝ) = 2 ^ 13 by norm_num, Real.log_pow]
        push_cast
        ring
      linarith
    have h1025 : Real.log 1025 ≤ 10 * Real.log 2 + 1 / 1024 := by
      have h1 : Real.log (1025 / 1024) = Real.log 1025 - Real.log 1024 :=
        Real.log_div (by norm_num) (by norm_num)
      have h2 : Real.log 1024 = 10 * Real.log 2 := by
        rw [show (1024 : ℝ) = 2 ^ 10 by norm_num, Real.log_pow]
        push_cast
        ring
      have h3 : Real.log (1025 / 1024) ≤ 1025 / 1024 - 1 :=
        Real.log_le_sub_one_of_pos (by norm_num)
      have h4 : (1025 : ℝ) / 1024 - 1 = 1 / 1024 := by norm_num
      linarith
    rw [← sub_pos]
    have hmul : 0 < (tree_build_term 1 2048 0 + 2 + chargeOf 8 2048 2 + 4
        - (tree_build_term 2 1024 0 + 2 + chargeOf 8 2048 3 + 4)) * (10 * Real.log 2) := by
      rw [hexp]
      linarith
    rcases mul_pos_iff.mp hmul with ⟨h, _⟩ | ⟨_, h2⟩
    · exact h
    · linarith

/-- One discrete step of the tree-build cost function: log2_n_fact is
nondecreasing from (k+1) to (k+2) for every natural k. -/
theorem log2_n_fact_step (k : ℕ) :
    log2_n_fact ((k : ℝ) + 1) ≤ log2_n_fact ((k : ℝ) + 2) := by
  have hlog2 : 0 < Real.log 2 := Real.log_pos (by norm_num)
  have hx : (0 : ℝ) < (k : ℝ) + 1 := by positivity
  have hx2 : (0 : ℝ) < (k : ℝ) + 2 := by positivity
  rw [log2_n_fact, log2_n_fact, div_le_div_iff_of_pos_right hlog2]
  rw [log_div_e _ hx, log_div_e _ hx2]
  have hpi : 0 < Real.pi := Real.pi_pos
  have hlogmono : Real.log (2 * Real.pi * ((k : ℝ) + 1)) ≤
      Real.log (2 * Real.pi * ((k : ℝ) + 2)) := by
    apply Real.log_le_log (by positivity)
    nlinarith
  have hkey : ((k : ℝ) + 1) * (Real.log ((k : ℝ) + 1) - 1) ≤
      ((k : ℝ) + 2) * (Real.log ((k : ℝ) + 2) - 1) := by
    cases k with
    | zero =>
      have hl2 : 0.6931471803 < Real.log 2 := Real.log_two_gt_d9
      norm_num
      nlinarith
    | succ j =>
      have hx3 : (3 : ℝ) ≤ (j : ℝ) + 3 := by
        have : (0 : ℝ) ≤ (j : ℝ) := Nat.cast_nonneg j
        linarith
      have hlog3 : 1 ≤ Real.log ((j : ℝ) + 3) := by
        have h1 : Real.log (Real.exp 1) ≤ Real.log ((j : ℝ) + 3) := by
          apply Real.log_le_log (Real.exp_pos 1)
          have := Real.exp_one_lt_d9
          linarith
        rwa [Real.log_exp] at h1
      have hmono : Real.log ((j : ℝ) + 2) ≤ Real.log ((j : ℝ) + 3) := by
        apply Real.log_le_log (by positivity)
        linarith
      have hj : (0 : ℝ) ≤ (j : ℝ) := Nat.cast_nonneg j
      push_cast
      have hprod : 0 ≤ ((j : ℝ) + 2) * (Real.log ((j : ℝ) + 3) - Real.log ((j : ℝ) + 2)) :=
        mul_nonneg (by linarith) (by linarith)
      have hshape1 : (j : ℝ) + 1 + 1 = (j : ℝ) + 2 := by ring
      have hshape2 : (j : ℝ) + 1 + 2 = (j : ℝ) + 3 := by ring
      rw [hshape1, hshape2]
      nlinarith
  linarith

/-- Monotonicity of log2_n_fact over natural arguments. -/
theorem log2_n_fact_mono (a b : ℕ) (h : a ≤ b) :
    log2_n_fact ((a : ℝ) + 1) ≤ log2_n_fact ((b : ℝ) + 1) := by
  induction b, h using Nat.le_induction with
  | base => exact le_refl _
  | succ b hb ih =>
    have hstep := log2_n_fact_step b
    have hcast : ((b + 1 : ℕ) : ℝ) + 1 = (b : ℝ) + 2 := by push_cast; ring
    rw [hcast]
    linarith

/-- Claim C8 amended: monotonicity in key_count does hold throughout the
in-memory regime: with key_size and memory_budget fixed, if both key counts
are below max_elements_in_tree (no full run, the fast path of the
estimator), a larger key count never yields a smaller estimate.  Outside
that regime both monotonicity directions fail (see the counterexample). -/
theorem C8_inmemory_monotone (key_size mem n m : ℕ) (hnm : n ≤ m)
    (hm : m < max_elements_in_tree key_size mem) :
    get_use_cost n key_size mem ≤ get_use_cost m key_size mem := by
  have hn : n < max_elements_in_tree key_size mem := lt_of_le_of_lt hnm hm
  rw [get_use_cost, get_use_cost]
  rw [Nat.div_eq_of_lt hn, Nat.div_eq_of_lt hm, Nat.mod_eq_of_lt hn, Nat.mod_eq_of_lt hm]
  rw [if_pos rfl, if_pos rfl]
  rw [tree_build_term, tree_build_term, TIME_FOR_COMPARE_ROWID]
  rw [if_neg (by norm_num), if_neg (by norm_num)]
  have := log2_n_fact_mono n m hnm
  have hlog2 : 0 < Real.log 2 := Real.log_pos (by norm_num)
  apply div_le_div_of_nonneg_right ?_ (by norm_num)
  linarith

/-- Claim C8 amended witness: with 32 elements per run, the estimate at one
key is at most the estimate at five keys. -/
theorem C8_inmemory_witness :
    get_use_cost 1 8 1024 ≤ get_use_cost 5 8 1024 :=
  C8_inmemory_monotone 8 1024 1 5 (by norm_num) (by decide)

/-! ## Claim C7 amended: the code simulation equals the amended description -/

theorem mergeTotal_set_lt (l : List ℕ) (t v first last : ℕ) (h : t < first) :
    mergeTotal (l.set t v) first last = mergeTotal l first last := by
  rw [mergeTotal, mergeTotal]
  apply Finset.sum_congr rfl
  intro j _
  rw [List.getD_eq_getElem?_getD, List.getD_eq_getElem?_getD,
    List.getElem?_set_ne (by omega)]

theorem passLoop_eq_amd (es mb : ℕ) :
    ∀ (g i : ℕ) (l : List ℕ) (cnt : ℕ),
      (i + 10 ≤ mb → g = (mb - 10 - i) / 7 + 1) →
      (mb < i + 10 → g = 0) →
      (passLoop es mb i l cnt).1 =
          (∑ j ∈ Finset.range g, chargeOf es (mergeTotal l (i + 7 * j) (i + 7 * j + 6)) 7) +
            chargeOf es (mergeTotal l (i + 7 * g) mb) (mb + 1 - (i + 7 * g)) ∧
        (passLoop es mb i l cnt).2.1 =
          mergeUpdate ((List.range g).foldl
            (fun a j => mergeUpdate a (i + 7 * j) (i + 7 * j + 6)) l) (i + 7 * g) mb ∧
        (passLoop es mb i l cnt).2.2.1 = cnt + g + 1 := by
  intro g
  induction g with
  | zero =>
    intro i l cnt h1 h2
    have hni : ¬ (i + 10 ≤ mb) := by
      intro hle
      exact absurd (h1 hle) (by omega)
    rw [passLoop, dif_neg hni]
    refine ⟨?_, ?_, rfl⟩
    · simp [mergeBuffersCost]
    · simp
  | succ g ih =>
    intro i l cnt h1 h2
    have hle : i + 10 ≤ mb := by
      by_contra hn
      exact absurd (h2 (by omega)) (by omega)
    have hrec := ih (i + 7) (mergeUpdate l i (i + 6)) (cnt + 1)
      (fun h => by
        have := h1 hle
        omega)
      (fun h => by
        have := h1 hle
        omega)
    rw [passLoop, dif_pos hle]
    have hupd : mergeUpdate l i (i + 6) = l.set (i + 6) (mergeTotal l i (i + 6)) := rfl
    have hfun : ∀ (a : List ℕ) (j : ℕ),
        mergeUpdate a (i + 7 * (j + 1)) (i + 7 * (j + 1) + 6) =
          mergeUpdate a (i + 7 + 7 * j) (i + 7 + 7 * j + 6) := by
      intro a j
      congr 1 <;> ring
    refine ⟨?_, ?_, ?_⟩
    · show mergeBuffersCost es l i (i + 6) +
        (passLoop es mb (i + 7) (mergeUpdate l i (i + 6)) (cnt + 1)).1 = _
      rw [hrec.1]
      rw [Finset.sum_range_succ']
      have h0 : i + 7 * 0 = i := by ring
      have h06 : i + 7 * 0 + 6 = i + 6 := by ring
      rw [h0, h06]
      have hsum : ∀ j ∈ Finset.range g,
          chargeOf es (mergeTotal (mergeUpdate l i (i + 6)) (i + 7 + 7 * j)
            (i + 7 + 7 * j + 6)) 7 =
          chargeOf es (mergeTotal l (i + 7 * (j + 1)) (i + 7 * (j + 1) + 6)) 7 := by
        intro j _
        rw [hupd, mergeTotal_set_lt _ _ _ _ _ (by omega)]
        congr 2 <;> ring
      rw [Finset.sum_congr rfl hsum]
      have htail : mergeTotal (mergeUpdate l i (i + 6)) (i + 7 + 7 * g) mb =
          mergeTotal l (i + 7 * (g + 1)) mb := by
        rw [hupd, mergeTotal_set_lt _ _ _ _ _ (by omega)]
        congr 1
        ring
      rw [htail]
      have hn1 : mb + 1 - (i + 7 + 7 * g) = mb + 1 - (i + 7 * (g + 1)) := by omega
      rw [hn1]
      have hchg : chargeOf es (mergeTotal l i (i + 6)) (i + 6 + 1 - i) =
          chargeOf es (mergeTotal l i (i + 6)) 7 := by
        congr 1
        omega
      rw [mergeBuffersCost, hchg]
      ring
    · show (passLoop es mb (i + 7) (mergeUpdate l i (i + 6)) (cnt + 1)).2.1 = _
      rw [hrec.2.1]
      rw [List.range_succ_eq_map, List.foldl_cons, List.foldl_map]
      have h0 : i + 7 * 0 = i := by ring
      have h06 : i + 7 * 0 + 6 = i + 6 := by ring
      rw [h0, h06]
      have hfun2 : (fun (a : List ℕ) (j : ℕ) =>
          mergeUpdate a (i + 7 * (j + 1)) (i + 7 * (j + 1) + 6)) =
          fun a j => mergeUpdate a (i + 7 + 7 * j) (i + 7 + 7 * j + 6) := by
        funext a j
        exact hfun a j
      rw [← hfun2]
      have hout : i + 7 + 7 * g = i + 7 * (g + 1) := by ring
      rw [hout]
    · show (passLoop es mb (i + 7) (mergeUpdate l i (i + 6)) (cnt + 1)).2.2.1 = _
      rw [hrec.2.2]
      omega

theorem manyLoop_amended (es : ℕ) :
    ∀ (mb : ℕ) (l : List ℕ),
      (manyLoop es l mb).1 +
          mergeBuffersCost es (manyLoop es l mb).2.1 0 (manyLoop es l mb).2.2 =
        amendedSim es l mb := by
  intro mb
  induction mb using Nat.strong_induction_on with
  | _ mb ih =>
    intro l
    by_cases h : MERGEBUFF2 ≤ mb
    · have hamd := passLoop_eq_amd es mb (fullGroups mb) 0 l 0
        (fun _ => by simp [fullGroups])
        (fun hlt => by simp only [MERGEBUFF2] at h; omega)
      rcases hp : passLoop es mb 0 l 0 with ⟨c, l1, m1⟩
      rw [hp] at hamd
      simp only at hamd
      rw [manyLoop, dif_pos h, hp]
      have hm1 : m1.1 = fullGroups mb + 1 := by
        have := hamd.2.2
        simpa using this
      have hlt : 4 * (fullGroups mb + 1) - 1 < mb := by
        simp only [MERGEBUFF2] at h
        simp only [fullGroups]
        omega
      have hrec := ih (4 * (fullGroups mb + 1) - 1) hlt l1
      rw [amendedSim, dif_pos h]
      have hc : c = (amendedPass es l mb).1 := by
        have := hamd.1
        simp only [amendedPass]
        rw [this]
        simp
      have hl1 : l1 = (amendedPass es l mb).2.1 := by
        have := hamd.2.1
        simp only [amendedPass]
        rw [this]
        simp
      have hm2 : (amendedPass es l mb).2.2 = 4 * (fullGroups mb + 1) - 1 := rfl
      simp only [hm1, hm2]
      rw [← hc, ← hl1]
      rw [← hrec]
      ring
    · rw [manyLoop, dif_neg h, amendedSim, dif_neg h]
      simp [mergeBuffersCost]

/-- Claim C7 amended: the merge-cost simulation behaves as follows (and the
embedded code function provably equals this description, amendedSim): while
maxbuffer is at or above MERGEBUFF2, one pass performs
(maxbuffer-10)/7 + 1 collapses of exactly the seven slots 7j..7j+6 each,
plus one tail collapse of slots 7*((maxbuffer-10)/7 + 1)..maxbuffer (between
4 and 10 runs, so the tail may exceed the fan-in limit of 7); every collapse
is charged 2*(slot total)*elem_size/IO_SIZE plus
(slot total)*log2(number of slots)/TIME_FOR_COMPARE_ROWID on the values
currently in the array; each collapse stores its total into the last slot of
its group, so the array is never compacted and subsequent passes (and the
final collapse of slots 0..maxbuffer) read stale leading slots; the new
maxbuffer after a pass is 4*(number of collapses) - 1, because line 205
casts the null-based uint pointer lastbuff, advanced once per collapse, to
uint, yielding sizeof(uint) = 4 times the collapse count. -/
theorem C7_amended_sim_eq (maxbuffer max_n_elems last_n_elems elem_size : ℕ) :
    get_merge_many_buffs_cost maxbuffer max_n_elems last_n_elems elem_size =
      amendedSim elem_size (List.replicate maxbuffer max_n_elems ++ [last_n_elems])
        maxbuffer := by
  rw [get_merge_many_buffs_cost]
  rcases hm : manyLoop elem_size
      (List.replicate maxbuffer max_n_elems ++ [last_n_elems]) maxbuffer with ⟨c, l1, m1⟩
  have := manyLoop_amended elem_size maxbuffer
    (List.replicate maxbuffer max_n_elems ++ [last_n_elems])
  rw [hm] at this
  simpa using this

/-- Claim C7 amended, tail-size clause: the tail collapse of a pass entered
with maxbuffer at or above MERGEBUFF2 spans between 4 and 10 runs. -/
theorem C7_tail_group_size (mb : ℕ) (h : MERGEBUFF2 ≤ mb) :
    4 ≤ mb + 1 - 7 * fullGroups mb ∧ mb + 1 - 7 * fullGroups mb ≤ 10 := by
  simp only [MERGEBUFF2] at h
  simp only [fullGroups]
  omega

end Uniques
